import Mathlib

/-!
Verification development for the claude-pm project manager.

The development shallowly embeds the core of the tool:
- the path codec (src/projectManager.js: convertPathToDirName, convertDirNameToPath),
- the cache scanner (getRealPathFromJsonl, getSessionCount, getDirectorySize),
- the configuration reader (getClaudeProjects),
- the reconciler (getLocalProjects),
- the history trimming loop of historyClean (src/commands.js),
- the apply phase of cleanProjects (src/commands.js lines 300-382), modelled as an
  explicit trace of filesystem events so that ordering properties can be stated.

Strings are modelled as lists of characters; the filesystem is modelled as a tree of
entries where files carry a size, a readability flag and (for session logs) a list of
already-split JSON lines, and directories carry a modification time and a listability
flag.  A readdir / stat / read on an entry whose flag is false corresponds to the
JavaScript call throwing.
-/

/-- Strings of the JavaScript source are modelled as lists of characters. -/
abbrev PathStr := List Char

/-- Matches the regex class [A-Z] used by both codec functions. -/
def isUpperAZ (c : Char) : Bool := 'A' ≤ c && c ≤ 'Z'

/-- Matches the regex class [a-z]; used only in statements about lower-case drives. -/
def isLowerAZ (c : Char) : Bool := 'a' ≤ c && c ≤ 'z'

/-- The separator normalization realPath.replace(slash, backslash) in convertPathToDirName. -/
def normalizeSeps (p : PathStr) : PathStr :=
  p.map (fun c => if c = '/' then '\\' else c)

/-- Character step of pathPart.replace([backslash or dot], dash) in convertPathToDirName. -/
def encodeSegChar (c : Char) : Char :=
  if c = '\\' || c = '.' then '-' else c

/-- Character step of pathPart.replace(dash, backslash) in convertDirNameToPath. -/
def decodeSegChar (c : Char) : Char :=
  if c = '-' then '\\' else c

/-- Embedding of convertPathToDirName (projectManager.js lines 91-106): an empty path
gives the empty string, a path whose normalized form starts with an upper-case drive
letter, a colon and a backslash is encoded as drive ++ dash ++ dash ++ encoded rest,
and every other path is returned unchanged. -/
def convertPathToDirName (p : PathStr) : PathStr :=
  if p.isEmpty then [] else
    match normalizeSeps p with
    | d :: c1 :: c2 :: rest =>
      if isUpperAZ d && c1 == ':' && c2 == '\\' then
        d :: '-' :: '-' :: rest.map encodeSegChar
      else p
    | _ => p

/-- Embedding of convertDirNameToPath (projectManager.js lines 35-47): requires the
drive ++ dash ++ dash prefix, replaces every dash of the remainder with a backslash;
names without the prefix are returned unchanged. -/
def convertDirNameToPath (n : PathStr) : PathStr :=
  match n with
  | d :: c1 :: c2 :: rest =>
    if isUpperAZ d && c1 == '-' && c2 == '-' then
      d :: ':' :: '\\' :: rest.map decodeSegChar
    else n
  | _ => n

/-- An upper-case drive letter is not a forward slash. -/
theorem upper_ne_slash {d : Char} (hd : isUpperAZ d = true) : d ≠ '/' := by
  intro h
  subst h
  exact absurd hd (by decide)

/-- Round trip of a single character of the path remainder that is neither a dot nor
a dash: normalization, encoding and decoding compose to normalization. -/
theorem codec_char_round (c : Char) (h1 : c ≠ '.') (h2 : c ≠ '-') :
    decodeSegChar (encodeSegChar (if c = '/' then '\\' else c)) = (if c = '/' then '\\' else c) := by
  by_cases hs : c = '/'
  · subst hs
    simp [encodeSegChar, decodeSegChar]
  · by_cases hb : c = '\\'
    · subst hb
      simp [encodeSegChar, decodeSegChar]
    · simp [encodeSegChar, decodeSegChar, hs, hb, h1, h2]

/-- Round trip of the whole remainder, character-wise. -/
theorem codec_rest_round (rest : PathStr) (hdot : '.' ∉ rest) (hdash : '-' ∉ rest) :
    ((normalizeSeps rest).map encodeSegChar).map decodeSegChar = normalizeSeps rest := by
  induction rest with
  | nil => rfl
  | cons c cs ih =>
    have h1 : c ≠ '.' := fun h => hdot (h ▸ List.mem_cons_self c cs)
    have h2 : c ≠ '-' := fun h => hdash (h ▸ List.mem_cons_self c cs)
    have hcs1 : '.' ∉ cs := fun h => hdot (List.mem_cons_of_mem c h)
    have hcs2 : '-' ∉ cs := fun h => hdash (List.mem_cons_of_mem c h)
    simp only [normalizeSeps, List.map_cons] at *
    rw [ih hcs1 hcs2]
    rw [codec_char_round c h1 h2]

/-- Evaluation of the encoder on a drive-rooted path. -/
theorem convertPathToDirName_drive (d s : Char) (rest : PathStr)
    (hd : isUpperAZ d = true) (hs : s = '\\' ∨ s = '/') :
    convertPathToDirName (d :: ':' :: s :: rest) =
      d :: '-' :: '-' :: (normalizeSeps rest).map encodeSegChar := by
  have hds : (if d = '/' then '\\' else d) = d := by
    simp [upper_ne_slash hd]
  have hss : (if s = '/' then '\\' else s) = '\\' := by
    rcases hs with h | h <;> subst h <;> simp
  simp only [convertPathToDirName, List.isEmpty_cons, normalizeSeps, List.map_cons]
  rw [show ((if (':' : Char) = '/' then '\\' else ':') = ':') from by decide]
  rw [hds, hss]
  simp [hd, normalizeSeps]

/-- C4: for every real path rooted at an upper-case drive letter whose remainder
contains no literal dot and no dash, decoding the encoded directory name recovers the
path exactly, up to normalizing separators to backslashes:
convertDirNameToPath (convertPathToDirName p) equals p with separators normalized. -/
theorem claim_C4_codec_round_trip (d s : Char) (rest : PathStr)
    (hd : isUpperAZ d = true) (hs : s = '\\' ∨ s = '/')
    (hdot : '.' ∉ rest) (hdash : '-' ∉ rest) :
    convertDirNameToPath (convertPathToDirName (d :: ':' :: s :: rest)) =
      normalizeSeps (d :: ':' :: s :: rest) := by
  rw [convertPathToDirName_drive d s rest hd hs]
  have hss : (if s = '/' then '\\' else s) = '\\' := by
    rcases hs with h | h <;> subst h <;> simp
  simp only [convertDirNameToPath, hd, Bool.true_and]
  rw [if_pos (by decide)]
  simp only [normalizeSeps, List.map_cons]
  rw [show ((if (':' : Char) = '/' then '\\' else ':') = ':') from by decide]
  rw [show ((if d = '/' then '\\' else d) = d) from by simp [upper_ne_slash hd]]
  rw [hss]
  have := codec_rest_round rest hdot hdash
  simp only [normalizeSeps] at this
  rw [this]

/-- Witness for C4 at the concrete path D:\ab. -/
theorem claim_C4_codec_round_trip_witness :
    convertDirNameToPath (convertPathToDirName ('D' :: ':' :: '\\' :: ['a', 'b'])) =
      normalizeSeps ('D' :: ':' :: '\\' :: ['a', 'b']) :=
  claim_C4_codec_round_trip 'D' '\\' ['a', 'b'] (by decide) (Or.inl rfl) (by decide) (by decide)

/-- A lower-case letter differs from every upper-case letter and from the slash. -/
theorem lower_ne_upper {d u : Char} (hld : isLowerAZ d = true) (hu : isUpperAZ u = true) :
    d ≠ u := by
  intro h
  subst h
  simp [isLowerAZ] at hld
  simp [isUpperAZ] at hu
  exact absurd (le_trans hld.1 hu.2) (by decide)

/-- A lower-case drive letter fails the upper-case test of the encoder. -/
theorem lower_not_upper {d : Char} (hld : isLowerAZ d = true) : isUpperAZ d = false := by
  cases h : isUpperAZ d with
  | false => rfl
  | true =>
    exfalso
    simp [isLowerAZ] at hld
    simp [isUpperAZ] at h
    exact absurd (le_trans hld.1 h.2) (by decide)

/-- A lower-case letter is not a forward slash. -/
theorem lower_ne_slash {d : Char} (hld : isLowerAZ d = true) : d ≠ '/' := by
  intro h
  subst h
  exact absurd hld (by decide)

/-- C10: the encoder recognizes only single upper-case drive letters.  The empty
string is returned unchanged, a path with a lower-case drive letter is returned
unchanged, and such a path can never equal the encoded directory name of any
upper-case drive-rooted path, so a ConfigEntry keyed by a lower-case drive path can
never match the cache directory the encoder would produce by exact name. -/
theorem claim_C10_lowercase_drive_pass_through (d s u t : Char) (rest r : PathStr)
    (hld : isLowerAZ d = true) (hu : isUpperAZ u = true) (ht : t = '\\' ∨ t = '/') :
    convertPathToDirName ([] : PathStr) = [] ∧
    convertPathToDirName (d :: ':' :: s :: rest) = d :: ':' :: s :: rest ∧
    d :: ':' :: s :: rest ≠ convertPathToDirName (u :: ':' :: t :: r) := by
  refine ⟨rfl, ?_, ?_⟩
  · simp only [convertPathToDirName, List.isEmpty_cons, normalizeSeps, List.map_cons]
    rw [show ((if d = '/' then '\\' else d) = d) from by simp [lower_ne_slash hld]]
    simp [lower_not_upper hld]
  · rw [convertPathToDirName_drive u t r hu ht]
    intro h
    exact lower_ne_upper hld hu (List.head_eq_of_cons_eq h)

/-- Witness for C10 at the concrete lower-case path d:\x against upper-case D:\x. -/
theorem claim_C10_lowercase_drive_pass_through_witness :
    convertPathToDirName ([] : PathStr) = [] ∧
    convertPathToDirName ('d' :: ':' :: '\\' :: ['x']) = 'd' :: ':' :: '\\' :: ['x'] ∧
    'd' :: ':' :: '\\' :: ['x'] ≠ convertPathToDirName ('D' :: ':' :: '\\' :: ['x']) :=
  claim_C10_lowercase_drive_pass_through 'd' '\\' 'D' '\\' ['x'] ['x']
    (by decide) (by decide) (Or.inl rfl)

/-- One line of a session-log file, after the split-and-filter on newlines in
getRealPathFromJsonl: either it fails JSON.parse, or it parses to an object whose
cwd field is absent or holds a string (the empty string is falsy in JavaScript). -/
inductive LogLine where
  | invalid : LogLine
  | record (cwd : Option PathStr) : LogLine
deriving DecidableEq

/-- The cwd value a line contributes, with JavaScript truthiness: an unparseable
line, a line without cwd and a line whose cwd is the empty string contribute none. -/
def LogLine.cwdVal : LogLine → Option PathStr
  | .invalid => none
  | .record none => none
  | .record (some c) => if c.isEmpty then none else some c

/-- A filesystem entry.  Files carry their stat size, a readability flag (false
makes statSync and readFileSync throw) and their session-log lines; directories
carry a stat modification time, a listability flag (false makes readdirSync throw)
and their children in readdir order. -/
inductive Entry where
  | file (name : PathStr) (size : Nat) (readable : Bool) (lines : List LogLine) : Entry
  | dir (name : PathStr) (mtime : Int) (listable : Bool) (children : List Entry) : Entry

instance : Nonempty Entry := ⟨.file [] 0 true []⟩

/-- Name of an entry, as readdirSync reports it. -/
def Entry.name : Entry → PathStr
  | .file n _ _ _ => n
  | .dir n _ _ _ => n

/-- Dirent.isDirectory. -/
def Entry.isDir : Entry → Bool
  | .file _ _ _ _ => false
  | .dir _ _ _ _ => true

/-- Stat modification time of a directory (new Date(0) is modelled as 0). -/
def Entry.dirMtime : Entry → Int
  | .file _ _ _ _ => 0
  | .dir _ mt _ _ => mt

/-- The test f.endsWith applied with the session-log extension .jsonl. -/
def endsJsonl (n : PathStr) : Bool :=
  List.isSuffixOf ['.', 'j', 's', 'o', 'n', 'l'] n

/-- First truthy cwd among the lines of one file (the for loop of
getRealPathFromJsonl, lines 68-77): invalid lines are skipped, the scan continues. -/
def firstCwd : List LogLine → Option PathStr
  | [] => none
  | l :: rest =>
    match l.cwdVal with
    | some c => some c
    | none => firstCwd rest

/-- Embedding of getRealPathFromJsonl (projectManager.js lines 54-83).  The source
lists the directory, takes the FIRST entry whose name ends in .jsonl, reads it and
returns the first truthy cwd among its lines; any thrown error (unlistable
directory, the found entry being a directory, unreadable file) yields null. -/
def getRealPathFromJsonl : Entry → Option PathStr
  | .file _ _ _ _ => none
  | .dir _ _ listable children =>
    if listable then
      match children.find? (fun e => endsJsonl e.name) with
      | some (.file _ _ readable lines) => if readable then firstCwd lines else none
      | some (.dir _ _ _ _) => none
      | none => none
    else none

/-- Embedding of getSessionCount (projectManager.js lines 226-233): the length of
the name list filtered on the .jsonl suffix, or 0 when readdirSync throws. -/
def getSessionCount : Entry → Nat
  | .file _ _ _ _ => 0
  | .dir _ _ listable children =>
    if listable then (children.filter (fun e => endsJsonl e.name)).length else 0

mutual

/-- Embedding of getDirectorySize (projectManager.js lines 257-278).  The whole
loop over the listing sits inside one try block, so the first statSync failure on a
file abandons the rest of the listing and the accumulated total is returned;
failures inside a subdirectory are contained by the recursive call's own handler. -/
def getDirectorySize : Entry → Nat
  | .file _ _ _ _ => 0
  | .dir _ _ listable children => if listable then sizeOfChildren children else 0

/-- The for loop of getDirectorySize over one listing. -/
def sizeOfChildren : List Entry → Nat
  | [] => 0
  | .file _ sz readable _ :: rest => if readable then sz + sizeOfChildren rest else 0
  | .dir n mt l ch :: rest => getDirectorySize (.dir n mt l ch) + sizeOfChildren rest

end

mutual

/-- Modelled from the spec: the size a directory tree would have if every
unreadable entry contributed 0 WITHOUT aborting the remaining sum, as claim C5
describes the intended behaviour of directorySize. -/
def specDirectorySize : Entry → Nat
  | .file _ _ _ _ => 0
  | .dir _ _ listable children => if listable then specSizeOfChildren children else 0

/-- Spec-side per-listing sum: every readable file counts, unreadable ones are
skipped, the scan never stops early. -/
def specSizeOfChildren : List Entry → Nat
  | [] => 0
  | .file _ sz readable _ :: rest =>
    (if readable then sz else 0) + specSizeOfChildren rest
  | .dir n mt l ch :: rest => specDirectorySize (.dir n mt l ch) + specSizeOfChildren rest

end

/-- A directory with a readable 10-byte file, then an unreadable 5-byte file, then
a readable 7-byte file. -/
def exC5dir : Entry :=
  .dir ['d'] 0 true
    [.file ['a'] 10 true [], .file ['b'] 5 false [], .file ['c'] 7 true []]

/-- Counterexample to C5: on exC5dir the code returns 10 — the statSync failure on
the second file aborts the loop and drops the readable 7-byte file that follows —
while the sum of the readable children required by the claim is 17. -/
theorem claim_C5_counterexample :
    getDirectorySize exC5dir = 10 ∧ specDirectorySize exC5dir = 17 ∧ (10 : Nat) ≠ 17 := by
  refine ⟨?_, ?_, by decide⟩
  · simp [exC5dir, getDirectorySize, sizeOfChildren]
  · simp [exC5dir, specDirectorySize, specSizeOfChildren]

/-- A file entry that is unreadable. -/
def Entry.isBadFile : Entry → Bool
  | .file _ _ readable _ => !readable
  | .dir _ _ _ _ => false

/-- Contribution of a single entry to a directory sum, once known not to abort. -/
def entrySizeContrib : Entry → Nat
  | .file _ sz _ _ => sz
  | e => getDirectorySize e

/-- The loop total is the total over the prefix of the listing that precedes the
first unreadable file. -/
theorem sizeOfChildren_eq_prefix (l : List Entry) :
    sizeOfChildren l =
      ((l.takeWhile (fun e => !e.isBadFile)).map entrySizeContrib).sum := by
  induction l with
  | nil => simp [sizeOfChildren]
  | cons e rest ih =>
    cases e with
    | file n sz readable lines =>
      cases readable with
      | true => simp [sizeOfChildren, List.takeWhile, Entry.isBadFile, entrySizeContrib, ih]
      | false => simp [sizeOfChildren, List.takeWhile, Entry.isBadFile]
    | dir n mt listable ch =>
      simp [sizeOfChildren, List.takeWhile, Entry.isBadFile, entrySizeContrib, ih]

/-- C5 amended: getDirectorySize never raises and returns, for a listable
directory, the sum over the prefix of the listing preceding the first unreadable
file (an unreadable file aborts the rest of that listing; failures inside a
subdirectory are contained within that subdirectory's own recursive call), and 0
for an unlistable directory; getSessionCount never raises and counts every listed
entry whose name ends in .jsonl, readable or not, returning 0 when the listing
itself fails. -/
theorem claim_C5_amended (nm : PathStr) (mt : Int) (children : List Entry) :
    getDirectorySize (.dir nm mt true children) =
      ((children.takeWhile (fun e => !e.isBadFile)).map entrySizeContrib).sum ∧
    getDirectorySize (.dir nm mt false children) = 0 ∧
    getSessionCount (.dir nm mt true children) =
      children.countP (fun e => endsJsonl e.name) ∧
    getSessionCount (.dir nm mt false children) = 0 := by
  refine ⟨?_, ?_, ?_, ?_⟩
  · rw [show getDirectorySize (.dir nm mt true children) = sizeOfChildren children from by
      simp [getDirectorySize]]
    exact sizeOfChildren_eq_prefix children
  · simp [getDirectorySize]
  · simp [getSessionCount, List.countP_eq_length_filter]
  · simp [getSessionCount]

/-- A directory whose first session log carries no cwd while its second one does:
file a.jsonl has a single parsed line without cwd, file b.jsonl has a line whose
cwd is the one-character path X. -/
def exC2dir : Entry :=
  .dir ['p'] 0 true
    [.file ['a', '.', 'j', 's', 'o', 'n', 'l'] 1 true [.record none],
     .file ['b', '.', 'j', 's', 'o', 'n', 'l'] 1 true [.record (some ['X'])]]

/-- Counterexample to C2: the code inspects only the FIRST directory entry whose
name ends in .jsonl (files.find in getRealPathFromJsonl line 57).  On exC2dir it
returns none although the second session log b.jsonl carries a cwd, contradicting
the claim that the first cwd across ALL session-log files is returned and that
absence is only reported when no session log carries a cwd. -/
theorem claim_C2_counterexample :
    getRealPathFromJsonl exC2dir = none ∧
    endsJsonl ['b', '.', 'j', 's', 'o', 'n', 'l'] = true ∧
    firstCwd [LogLine.record (some ['X'])] = some ['X'] := by
  decide

/-- C2 amended: extractRealPath scans only the FIRST entry of the directory whose
name ends in .jsonl.  When that entry is a readable file, the result is the first
truthy cwd among its lines; a line that fails to parse is skipped without aborting
the scan of that file, and a line carrying a non-empty cwd stops the scan with that
value.  Logs after the first .jsonl entry are never consulted. -/
theorem claim_C2_amended (nm : PathStr) (mt : Int) (children : List Entry)
    (fn : PathStr) (sz : Nat) (lines : List LogLine)
    (hfind : children.find? (fun e => endsJsonl e.name) = some (.file fn sz true lines)) :
    getRealPathFromJsonl (.dir nm mt true children) = firstCwd lines ∧
    (∀ rest, firstCwd (LogLine.invalid :: rest) = firstCwd rest) ∧
    (∀ c rest, ¬ c.isEmpty → firstCwd (LogLine.record (some c) :: rest) = some c) := by
  refine ⟨?_, ?_, ?_⟩
  · simp only [getRealPathFromJsonl, if_true, hfind]
  · intro rest
    simp [firstCwd, LogLine.cwdVal]
  · intro c rest hc
    simp [firstCwd, LogLine.cwdVal, hc]

/-- Witness for C2 amended, on a directory whose first session log holds an
unparseable line followed by a cwd-carrying line. -/
theorem claim_C2_amended_witness :
    getRealPathFromJsonl (.dir ['p'] 0 true
        [.file ['a', '.', 'j', 's', 'o', 'n', 'l'] 1 true
          [LogLine.invalid, LogLine.record (some ['q'])]]) =
      firstCwd [LogLine.invalid, LogLine.record (some ['q'])] ∧
    (∀ rest, firstCwd (LogLine.invalid :: rest) = firstCwd rest) ∧
    (∀ c rest, ¬ c.isEmpty → firstCwd (LogLine.record (some c) :: rest) = some c) :=
  claim_C2_amended ['p'] 0
    [.file ['a', '.', 'j', 's', 'o', 'n', 'l'] 1 true
      [LogLine.invalid, LogLine.record (some ['q'])]]
    ['a', '.', 'j', 's', 'o', 'n', 'l'] 1
    [LogLine.invalid, LogLine.record (some ['q'])] rfl

/-- One record of a ConfigEntry history: a display text that may be absent, plus an
opaque payload standing for the other fields carried through verbatim. -/
structure HistItem where
  display : Option PathStr
  payload : Nat
deriving DecidableEq

/-- One value of the top-level projects object of the configuration file. -/
structure ConfigEntry where
  lastSessionId : Option PathStr
  history : List HistItem
deriving DecidableEq

instance : Nonempty HistItem := ⟨⟨none, 0⟩⟩

instance : Nonempty ConfigEntry := ⟨⟨none, []⟩⟩

/-- The observable states of the configuration file for getClaudeProjects: absent,
unreadable (readFileSync throws), unparsable (JSON.parse throws), or parsed with an
optional projects field. -/
inductive ConfigFileState where
  | missing : ConfigFileState
  | unreadable : ConfigFileState
  | unparsable : ConfigFileState
  | parsed (projects : Option (List (PathStr × ConfigEntry))) : ConfigFileState
deriving DecidableEq

/-- Embedding of getClaudeProjects (projectManager.js lines 9-25): a missing file
returns the empty map, any thrown error is caught and returns the empty map, and a
parsed object without a projects field falls back to the empty map.  The function
is total by construction, so listing operations always see a map. -/
def getClaudeProjects : ConfigFileState → List (PathStr × ConfigEntry)
  | .missing => []
  | .unreadable => []
  | .unparsable => []
  | .parsed none => []
  | .parsed (some ps) => ps

/-- C9: reading the project map is total and never throws — getClaudeProjects is a
total function of the file state, returns the empty map when the file is missing,
unreadable, unparsable, or parsed without a projects field, and returns the parsed
projects map otherwise. -/
theorem claim_C9_config_read_total (st : ConfigFileState) :
    ((st = .missing ∨ st = .unreadable ∨ st = .unparsable ∨ st = .parsed none) →
      getClaudeProjects st = []) ∧
    (∀ ps, st = .parsed (some ps) → getClaudeProjects st = ps) := by
  cases st with
  | missing => exact ⟨fun _ => rfl, fun ps h => by cases h⟩
  | unreadable => exact ⟨fun _ => rfl, fun ps h => by cases h⟩
  | unparsable => exact ⟨fun _ => rfl, fun ps h => by cases h⟩
  | parsed o =>
    cases o with
    | none =>
      refine ⟨fun _ => rfl, fun ps h => ?_⟩
      cases h
    | some ps =>
      refine ⟨fun h => ?_, fun qs h => ?_⟩
      · rcases h with h | h | h | h <;> cases h
      · cases h
        rfl

/-- JavaScript String.prototype.trim whitespace, restricted to the ASCII whitespace
characters that can appear in a display text here. -/
def isWsChar (c : Char) : Bool := c == ' ' || c == '\t' || c == '\n' || c == '\r'

/-- String.prototype.trim: drop leading and trailing whitespace. -/
def trimWs (s : PathStr) : PathStr :=
  ((s.dropWhile isWsChar).reverse.dropWhile isWsChar).reverse

/-- The display value the trimming loop of historyClean works with: item.display
with optional chaining and trim, then the validity filter that drops records whose
trimmed display is missing or shorter than 2 characters (commands.js lines 651-654).
Records with a key of none are skipped by the loop. -/
def displayKey (it : HistItem) : Option PathStr :=
  match it.display with
  | none => none
  | some s =>
    let d := trimWs s
    if d.length < 2 then none else some d

/-- Embedding of the deduplicating trim loop of historyClean (commands.js lines
647-663).  seen holds the display texts already kept, cap the remaining capacity
out of 25.  A record without a valid display is skipped by continue (the break test
is not reached); once capacity is exhausted the first record that reaches the break
test stops the loop, and nothing further is kept either way. -/
def historyTrimLoop : List HistItem → List PathStr → Nat → List HistItem
  | [], _, _ => []
  | it :: rest, seen, cap =>
    match displayKey it with
    | none => historyTrimLoop rest seen cap
    | some d =>
      if cap = 0 then []
      else if seen.contains d then historyTrimLoop rest seen cap
      else if cap = 1 then [it]
      else it :: historyTrimLoop rest (d :: seen) (cap - 1)

/-- Embedding of the per-entry action of historyClean: entries whose history holds
more than 30 records are trimmed to at most 25 deduplicated records; the loop runs
with an empty seen set and capacity 25 (commands.js lines 569, 647-665). -/
def historyCleanEntry (h : List HistItem) : List HistItem :=
  if h.length > 30 then historyTrimLoop h [] 25 else h

/-- The trim loop keeps at most cap records. -/
theorem historyTrimLoop_length (l : List HistItem) :
    ∀ seen cap, (historyTrimLoop l seen cap).length ≤ cap := by
  induction l with
  | nil => intro seen cap; simp [historyTrimLoop]
  | cons it rest ih =>
    intro seen cap
    simp only [historyTrimLoop]
    cases hk : displayKey it with
    | none => exact ih seen cap
    | some d =>
      by_cases h0 : cap = 0
      · simp [h0]
      · by_cases hs : seen.contains d
        · simp only [h0, if_false, hs, if_true]
          exact ih seen cap
        · have hs' : d ∉ seen := by simpa using hs
          by_cases h1 : cap = 1
          · simp [h0, hs', h1]
          · simp only [h0, if_false, hs, h1, Bool.false_eq_true, List.length_cons]
            have := ih (d :: seen) (cap - 1)
            omega

/-- The trim loop output is a subsequence of the input, in input order. -/
theorem historyTrimLoop_sublist (l : List HistItem) :
    ∀ seen cap, (historyTrimLoop l seen cap).Sublist l := by
  induction l with
  | nil => intro seen cap; simp [historyTrimLoop]
  | cons it rest ih =>
    intro seen cap
    simp only [historyTrimLoop]
    cases hk : displayKey it with
    | none => exact (ih seen cap).cons it
    | some d =>
      by_cases h0 : cap = 0
      · simp [h0]
      · by_cases hs : seen.contains d
        · simp only [h0, if_false, hs, if_true]
          exact (ih seen cap).cons it
        · by_cases h1 : cap = 1
          · simp only [h0, if_false, hs, h1, Bool.false_eq_true, if_true]
            exact (List.nil_sublist rest).cons₂ it
          · simp only [h0, if_false, hs, h1, Bool.false_eq_true]
            exact (ih (d :: seen) (cap - 1)).cons₂ it

/-- Every record kept by the trim loop has a valid display key, that key was not
seen before the loop started, and no two kept records share a key. -/
theorem historyTrimLoop_keys (l : List HistItem) :
    ∀ seen cap,
      ((historyTrimLoop l seen cap).map displayKey).Nodup ∧
      ∀ it ∈ historyTrimLoop l seen cap,
        ∃ d, displayKey it = some d ∧ seen.contains d = false := by
  induction l with
  | nil => intro seen cap; simp [historyTrimLoop]
  | cons it rest ih =>
    intro seen cap
    simp only [historyTrimLoop]
    cases hk : displayKey it with
    | none => exact ih seen cap
    | some d =>
      by_cases h0 : cap = 0
      · simp [h0]
      · by_cases hs : seen.contains d
        · simp only [h0, if_false, hs, if_true]
          exact ih seen cap
        · by_cases h1 : cap = 1
          · simp only [h0, if_false, hs, h1, Bool.false_eq_true, if_true]
            refine ⟨by simp, ?_⟩
            intro a ha
            rcases List.mem_singleton.mp ha with rfl
            exact ⟨d, hk, by simpa using hs⟩
          · simp only [h0, if_false, hs, h1, Bool.false_eq_true]
            obtain ⟨hnd, hall⟩ := ih (d :: seen) (cap - 1)
            constructor
            · simp only [List.map_cons, List.nodup_cons, hnd, and_true]
              intro hmem
              rcases List.mem_map.mp hmem with ⟨a, ha, hkey⟩
              obtain ⟨da, hda, hnotseen⟩ := hall a ha
              rw [hda] at hkey
              rw [hk] at hkey
              have : da = d := by
                injection hkey.symm with h
                exact h.symm
              subst this
              simp at hnotseen
            · intro a ha
              rcases List.mem_cons.mp ha with rfl | hmem
              · exact ⟨d, hk, by simpa using hs⟩
              · obtain ⟨da, hda, hnotseen⟩ := hall a hmem
                refine ⟨da, hda, ?_⟩
                simp only [List.contains_cons, Bool.or_eq_false_iff] at hnotseen
                exact hnotseen.2

/-- C6: for every ConfigEntry whose history exceeds 30 records, the trimmed history
has length at most 25, is a subsequence of the input preserving the input order,
every kept record carries a valid (non-blank) display text, and no two kept records
share the same display text. -/
theorem claim_C6_history_trim (h : List HistItem) (hbig : h.length > 30) :
    (historyCleanEntry h).length ≤ 25 ∧
    (historyCleanEntry h).Sublist h ∧
    ((historyCleanEntry h).map displayKey).Nodup ∧
    (∀ it ∈ historyCleanEntry h, ∃ d, displayKey it = some d) := by
  have hcl : historyCleanEntry h = historyTrimLoop h [] 25 := by
    simp [historyCleanEntry, hbig]
  rw [hcl]
  obtain ⟨hnd, hall⟩ := historyTrimLoop_keys h [] 25
  exact ⟨historyTrimLoop_length h [] 25, historyTrimLoop_sublist h [] 25, hnd,
    fun it hit => (hall it hit).imp (fun d hd => hd.1)⟩

/-- Witness for C6, on a history of 31 records sharing one display text: the
trimmed history keeps exactly the properties claimed. -/
theorem claim_C6_history_trim_witness :
    (historyCleanEntry (List.replicate 31 ⟨some ['a', 'b'], 0⟩)).length ≤ 25 ∧
    (historyCleanEntry (List.replicate 31 ⟨some ['a', 'b'], 0⟩)).Sublist
      (List.replicate 31 ⟨some ['a', 'b'], 0⟩) ∧
    ((historyCleanEntry (List.replicate 31 ⟨some ['a', 'b'], 0⟩)).map displayKey).Nodup ∧
    (∀ it ∈ historyCleanEntry (List.replicate 31 ⟨some ['a', 'b'], 0⟩),
      ∃ d, displayKey it = some d) :=
  claim_C6_history_trim (List.replicate 31 ⟨some ['a', 'b'], 0⟩) (by decide)

/-- Keys of an insertion-ordered map modelled as an association list (a JavaScript
Map or plain object; both iterate in insertion order). -/
def mapKeys {α : Type} (m : List (PathStr × α)) : List PathStr :=
  m.map (fun pr => pr.1)

/-- Map.has / object key test. -/
def jsMapHas {α : Type} (m : List (PathStr × α)) (k : PathStr) : Bool :=
  m.any (fun pr => pr.1 == k)

/-- Map.get / object property read. -/
def jsMapGet {α : Type} (m : List (PathStr × α)) (k : PathStr) : Option α :=
  (m.find? (fun pr => pr.1 == k)).map (fun pr => pr.2)

/-- Map.set / object property write: overwrite in place when the key exists,
append otherwise. -/
def jsMapSet {α : Type} (m : List (PathStr × α)) (k : PathStr) (v : α) : List (PathStr × α) :=
  if jsMapHas m k then m.map (fun pr => if pr.1 == k then (k, v) else pr)
  else m ++ [(k, v)]

/-- Map.delete / the delete operator: remove the entry with the given key. -/
def jsMapDelete {α : Type} (m : List (PathStr × α)) (k : PathStr) : List (PathStr × α) :=
  List.eraseP (fun pr => pr.1 == k) m

/-- Membership characterization of jsMapHas. -/
theorem jsMapHas_iff_mem {α : Type} (m : List (PathStr × α)) (k : PathStr) :
    jsMapHas m k = true ↔ k ∈ mapKeys m := by
  induction m with
  | nil => simp [jsMapHas, mapKeys]
  | cons pr rest ih =>
    simp only [jsMapHas, List.any_cons, Bool.or_eq_true, beq_iff_eq, mapKeys, List.map_cons,
      List.mem_cons] at *
    constructor
    · rintro (h | h)
      · exact Or.inl h.symm
      · exact Or.inr (ih.mp h)
    · rintro (h | h)
      · exact Or.inl h.symm
      · exact Or.inr (ih.mpr h)

/-- A set with a fresh key appends. -/
theorem jsMapSet_fresh {α : Type} (m : List (PathStr × α)) (k : PathStr) (v : α)
    (h : jsMapHas m k = false) : jsMapSet m k v = m ++ [(k, v)] := by
  simp [jsMapSet, h]

/-- Keys of a delete are the erased key list. -/
theorem mapKeys_delete {α : Type} (m : List (PathStr × α)) (k : PathStr) :
    mapKeys (jsMapDelete m k) = List.eraseP (fun x => x == k) (mapKeys m) := by
  induction m with
  | nil => rfl
  | cons pr rest ih =>
    simp only [jsMapDelete, mapKeys, List.eraseP_cons, List.map_cons] at *
    cases hpr : (pr.1 == k) with
    | true => simp [hpr]
    | false => simp [hpr, ih]

/-- Erasing a key from a duplicate-free key list removes it completely. -/
theorem not_mem_eraseP_self (l : List PathStr) (k : PathStr) (h : l.Nodup) :
    k ∉ List.eraseP (fun x => x == k) l := by
  induction l with
  | nil => simp
  | cons a rest ih =>
    simp only [List.eraseP_cons]
    cases ha : (a == k) with
    | true =>
      have : a = k := by simpa using ha
      subst this
      exact (List.nodup_cons.mp h).1
    | false =>
      intro hmem
      rcases List.mem_cons.mp hmem with rfl | hmem2
      · simp at ha
      · exact ih (List.nodup_cons.mp h).2 hmem2

/-- A successful get means the key is present. -/
theorem jsMapGet_some_mem {α : Type} {m : List (PathStr × α)} {k : PathStr} {v : α}
    (h : jsMapGet m k = some v) : k ∈ mapKeys m := by
  simp only [jsMapGet, Option.map_eq_some'] at h
  obtain ⟨pr, hfind, hv⟩ := h
  have hmem := List.mem_of_find?_eq_some hfind
  have hkey := List.find?_some hfind
  have hk : pr.1 = k := by simpa using hkey
  exact hk ▸ List.mem_map.mpr ⟨pr, hmem, rfl⟩

/-- A missing key yields a none get. -/
theorem jsMapGet_none_of_not_has {α : Type} {m : List (PathStr × α)} {k : PathStr}
    (h : jsMapHas m k = false) : jsMapGet m k = none := by
  have hfind : List.find? (fun pr => pr.1 == k) m = none := by
    rw [List.find?_eq_none]
    intro pr hpr hbeq
    have hmem : k ∈ mapKeys m := List.mem_map.mpr ⟨pr, hpr, by simpa using hbeq⟩
    rw [(jsMapHas_iff_mem m k).mpr hmem] at h
    cases h
  simp [jsMapGet, hfind]

/-- Get distributes over an append when the key is found on the left. -/
theorem jsMapGet_append_left {α : Type} (m m2 : List (PathStr × α)) (k : PathStr)
    (h : jsMapHas m k = true) : jsMapGet (m ++ m2) k = jsMapGet m k := by
  induction m with
  | nil => simp [jsMapHas] at h
  | cons pr rest ih =>
    simp only [jsMapGet, List.cons_append, List.find?_cons]
    cases hpr : (pr.1 == k) with
    | true => rfl
    | false =>
      have hrest : jsMapHas rest k = true := by
        simp only [jsMapHas, List.any_cons, hpr, Bool.false_or] at h
        exact h
      exact ih hrest

/-- Get on an appended fresh binding finds that binding. -/
theorem jsMapGet_append_fresh {α : Type} (m : List (PathStr × α)) (k : PathStr) (v : α)
    (h : jsMapHas m k = false) : jsMapGet (m ++ [(k, v)]) k = some v := by
  induction m with
  | nil => simp [jsMapGet]
  | cons pr rest ih =>
    simp only [jsMapHas, List.any_cons, Bool.or_eq_false_iff] at h
    simp only [jsMapGet, List.cons_append, List.find?_cons, h.1]
    exact ih h.2

/-- Has over an appended singleton. -/
theorem jsMapHas_append_single {α : Type} (m : List (PathStr × α)) (k q : PathStr) (v : α) :
    jsMapHas (m ++ [(k, v)]) q = (jsMapHas m q || (k == q)) := by
  induction m with
  | nil => simp [jsMapHas]
  | cons pr rest ih =>
    simp only [jsMapHas, List.cons_append, List.any_cons] at *
    rw [ih]
    cases hpr : (pr.1 == q) <;> simp [hpr, Bool.or_assoc]

/-- The derived view of one project as built by getLocalProjects.  Presentation
fields that no verified property mentions (name, displayName, the joined cache
path, lastDuration, lastCost) are omitted. -/
structure Project where
  dirName : PathStr
  realPath : PathStr
  hasCache : Bool
  lastModified : Int
  size : Nat
  sessionCount : Nat
  lastSessionId : Option PathStr

instance : Nonempty Project := ⟨⟨[], [], false, 0, 0, 0, none⟩⟩

/-- Step 1 of getLocalProjects (lines 117-126): the map from cache directory name
to directory, one entry per subdirectory of the cache root, in readdir order. -/
def cacheDirPool (cacheRoot : List Entry) : List (PathStr × Entry) :=
  (cacheRoot.filter Entry.isDir).map (fun e => (e.name, e))

/-- The content-match test of the reconciler (lines 144-151): the cwd read from
the directory's session log is truthy and equals the configured real path. -/
def cwdMatches (realPath : PathStr) (e : Entry) : Bool :=
  match getRealPathFromJsonl e with
  | some c => !c.isEmpty && c == realPath
  | none => false

/-- Resolution of one ConfigEntry against the unclaimed pool (lines 134-152):
exact name match first, then the first content match in pool order. -/
def findCacheDir (pool : List (PathStr × Entry)) (realPath : PathStr) :
    Option (PathStr × Entry) :=
  match jsMapGet pool (convertPathToDirName realPath) with
  | some e => some (convertPathToDirName realPath, e)
  | none => pool.find? (fun q => cwdMatches realPath q.2)

/-- State of the reconciliation loop: the unclaimed pool and the project map. -/
structure ReconState where
  pool : List (PathStr × Entry)
  acc : List (PathStr × Project)

/-- Step 2 of getLocalProjects (lines 131-182): resolve one ConfigEntry, build
its Project, remove a matched directory from the pool, and register the Project
under its real path. -/
def processConfigEntry (st : ReconState) (pr : PathStr × ConfigEntry) : ReconState :=
  match findCacheDir st.pool pr.1 with
  | some (dn, e) =>
    { pool := jsMapDelete st.pool dn,
      acc := jsMapSet st.acc pr.1
        { dirName := dn, realPath := pr.1, hasCache := true,
          lastModified := e.dirMtime, size := getDirectorySize e,
          sessionCount := getSessionCount e, lastSessionId := pr.2.lastSessionId } }
  | none =>
    { pool := st.pool,
      acc := jsMapSet st.acc pr.1
        { dirName := convertPathToDirName pr.1, realPath := pr.1, hasCache := false,
          lastModified := 0, size := 0, sessionCount := 0,
          lastSessionId := pr.2.lastSessionId } }

/-- The real path step 3 derives for an unclaimed directory (lines 186-190): the
cwd from its session log when truthy, else the lossy name decoding. -/
def derivedRealPath (q : PathStr × Entry) : PathStr :=
  match getRealPathFromJsonl q.2 with
  | some c => if c.isEmpty then convertDirNameToPath q.1 else c
  | none => convertDirNameToPath q.1

/-- The Project step 3 builds for an unclaimed directory (lines 196-207). -/
def mkDirProject (q : PathStr × Entry) (rp : PathStr) : Project :=
  { dirName := q.1, realPath := rp, hasCache := true, lastModified := q.2.dirMtime,
    size := getDirectorySize q.2, sessionCount := getSessionCount q.2,
    lastSessionId := none }

/-- Step 3 of getLocalProjects (lines 185-209): every directory left in the pool
becomes its own Project unless its derived real path is already registered, in
which case the directory is dropped. -/
def addLeftoverDirs (acc : List (PathStr × Project)) :
    List (PathStr × Entry) → List (PathStr × Project)
  | [] => acc
  | q :: rest =>
    if jsMapHas acc (derivedRealPath q) then addLeftoverDirs acc rest
    else addLeftoverDirs (jsMapSet acc (derivedRealPath q) (mkDirProject q (derivedRealPath q))) rest

/-- Embedding of getLocalProjects (projectManager.js lines 112-219): reconcile the
configured projects against the cache directory pool, add the leftover
directories, and sort the map values by last-modified time, descending. -/
def getLocalProjects (cfg : List (PathStr × ConfigEntry)) (cacheRoot : List Entry) :
    List Project :=
  let st := cfg.foldl processConfigEntry ⟨cacheDirPool cacheRoot, []⟩
  let m := addLeftoverDirs st.acc st.pool
  (m.map (fun pr => pr.2)).mergeSort (fun a b => b.lastModified ≤ a.lastModified)

/-- The cache directory names already claimed by a Project that has a cache. -/
def claimedDirs (acc : List (PathStr × Project)) : List PathStr :=
  (acc.filter (fun pr => pr.2.hasCache)).map (fun pr => pr.2.dirName)

/-- Invariant of the reconciliation loop: project keys are duplicate-free, every
Project sits under its own real path, pool keys are duplicate-free, claimed
directory names are duplicate-free and disjoint from the pool. -/
def ReconInv (st : ReconState) : Prop :=
  (mapKeys st.acc).Nodup ∧
  (∀ pr ∈ st.acc, pr.2.realPath = pr.1) ∧
  (mapKeys st.pool).Nodup ∧
  (claimedDirs st.acc).Nodup ∧
  (∀ d ∈ claimedDirs st.acc, d ∉ mapKeys st.pool)

/-- Claimed directories of a map extended with a fresh binding. -/
theorem claimedDirs_append (m : List (PathStr × Project)) (k : PathStr) (v : Project) :
    claimedDirs (m ++ [(k, v)]) =
      claimedDirs m ++ (if v.hasCache then [v.dirName] else []) := by
  simp only [claimedDirs, List.filter_append]
  cases hv : v.hasCache <;> simp [hv]

/-- A successful resolution names a directory of the pool. -/
theorem findCacheDir_mem_pool {pool : List (PathStr × Entry)} {rp dn : PathStr} {e : Entry}
    (h : findCacheDir pool rp = some (dn, e)) : dn ∈ mapKeys pool := by
  unfold findCacheDir at h
  cases hget : jsMapGet pool (convertPathToDirName rp) with
  | some e0 =>
    rw [hget] at h
    injection h with h2
    injection h2 with hdn he
    exact hdn ▸ jsMapGet_some_mem hget
  | none =>
    rw [hget] at h
    have hmem := List.mem_of_find?_eq_some h
    exact List.mem_map.mpr ⟨(dn, e), hmem, rfl⟩

/-- Keys of an append with a singleton. -/
theorem mapKeys_append_single {α : Type} (m : List (PathStr × α)) (k : PathStr) (v : α) :
    mapKeys (m ++ [(k, v)]) = mapKeys m ++ [k] := by
  simp [mapKeys]

/-- A fresh key is not among the keys. -/
theorem not_mem_of_not_has {α : Type} {m : List (PathStr × α)} {k : PathStr}
    (h : jsMapHas m k = false) : k ∉ mapKeys m := by
  intro hmem
  rw [(jsMapHas_iff_mem m k).mpr hmem] at h
  cases h

/-- Appending one fresh key preserves freedom from duplicates. -/
theorem nodup_append_single {l : List PathStr} {k : PathStr}
    (h : l.Nodup) (hk : k ∉ l) : (l ++ [k]).Nodup := by
  refine List.nodup_append.mpr ⟨h, List.nodup_singleton k, ?_⟩
  intro x hx hx2
  rcases List.mem_singleton.mp hx2 with rfl
  exact hk hx

/-- One resolution step preserves the reconciliation invariant and appends exactly
the processed real path to the project keys. -/
theorem processConfigEntry_step (st : ReconState) (pr : PathStr × ConfigEntry)
    (hinv : ReconInv st) (hfresh : jsMapHas st.acc pr.1 = false) :
    ReconInv (processConfigEntry st pr) ∧
    mapKeys (processConfigEntry st pr).acc = mapKeys st.acc ++ [pr.1] := by
  obtain ⟨hkacc, hfield, hkpool, hcl, hdisj⟩ := hinv
  have hnotin : pr.1 ∉ mapKeys st.acc := not_mem_of_not_has hfresh
  cases hfd : findCacheDir st.pool pr.1 with
  | some q =>
    obtain ⟨dn, e⟩ := q
    have hdn : dn ∈ mapKeys st.pool := findCacheDir_mem_pool hfd
    have hdn_ncl : dn ∉ claimedDirs st.acc := fun hin => hdisj dn hin hdn
    simp only [processConfigEntry, hfd]
    rw [jsMapSet_fresh _ _ _ hfresh]
    refine ⟨⟨?_, ?_, ?_, ?_, ?_⟩, mapKeys_append_single _ _ _⟩
    · rw [mapKeys_append_single]
      exact nodup_append_single hkacc hnotin
    · intro pr2 hpr2
      rcases List.mem_append.mp hpr2 with hmem | hmem
      · exact hfield pr2 hmem
      · rcases List.mem_singleton.mp hmem with rfl
        rfl
    · rw [mapKeys_delete]
      exact (List.eraseP_sublist _).nodup hkpool
    · rw [claimedDirs_append]
      simp only [if_true]
      exact nodup_append_single hcl hdn_ncl
    · intro d hd
      rw [claimedDirs_append] at hd
      simp only [if_true] at hd
      rw [mapKeys_delete]
      rcases List.mem_append.mp hd with hmem | hmem
      · intro hin
        exact hdisj d hmem ((List.eraseP_sublist (mapKeys st.pool)).mem hin)
      · rcases List.mem_singleton.mp hmem with rfl
        exact not_mem_eraseP_self (mapKeys st.pool) d hkpool
  | none =>
    simp only [processConfigEntry, hfd]
    rw [jsMapSet_fresh _ _ _ hfresh]
    refine ⟨⟨?_, ?_, hkpool, ?_, ?_⟩, mapKeys_append_single _ _ _⟩
    · rw [mapKeys_append_single]
      exact nodup_append_single hkacc hnotin
    · intro pr2 hpr2
      rcases List.mem_append.mp hpr2 with hmem | hmem
      · exact hfield pr2 hmem
      · rcases List.mem_singleton.mp hmem with rfl
        rfl
    · rw [claimedDirs_append]
      simpa using hcl
    · intro d hd
      rw [claimedDirs_append] at hd
      simp only [List.append_nil] at hd
      exact hdisj d (by simpa using hd)

/-- The reconciliation fold over all ConfigEntries preserves the invariant. -/
theorem foldl_process_inv (cfg : List (PathStr × ConfigEntry)) :
    ∀ st : ReconState, ReconInv st →
      (∀ k ∈ cfg.map (fun pr2 => pr2.1), jsMapHas st.acc k = false) →
      (cfg.map (fun pr2 => pr2.1)).Nodup →
      ReconInv (cfg.foldl processConfigEntry st) := by
  induction cfg with
  | nil =>
    intro st h _ _
    exact h
  | cons pr rest ih =>
    intro st hinv hf hnd
    have hfresh : jsMapHas st.acc pr.1 = false := hf pr.1 (by simp)
    obtain ⟨hinv2, hkeys⟩ := processConfigEntry_step st pr hinv hfresh
    have hnd2 : (pr.1 :: rest.map (fun pr2 => pr2.1)).Nodup := by simpa using hnd
    refine ih (processConfigEntry st pr) hinv2 ?_ (List.nodup_cons.mp hnd2).2
    intro k hk
    have hkold : jsMapHas st.acc k = false := hf k (by simp; exact Or.inr (by simpa using hk))
    have hne : k ≠ pr.1 := by
      intro he
      subst he
      exact (List.nodup_cons.mp hnd2).1 (by simpa using hk)
    cases hwk : jsMapHas (processConfigEntry st pr).acc k with
    | false => rfl
    | true =>
      exfalso
      have hmem := (jsMapHas_iff_mem _ _).mp hwk
      rw [hkeys] at hmem
      rcases List.mem_append.mp hmem with hmem | hmem
      · rw [(jsMapHas_iff_mem _ _).mpr hmem] at hkold
        cases hkold
      · rcases List.mem_singleton.mp hmem with rfl
        exact hne rfl

/-- Adding the leftover directories preserves key uniqueness, the key-field link
and uniqueness of claimed directory names. -/
theorem addLeftoverDirs_inv (pool : List (PathStr × Entry)) :
    ∀ acc : List (PathStr × Project),
      (mapKeys acc).Nodup → (∀ pr ∈ acc, pr.2.realPath = pr.1) →
      (mapKeys pool).Nodup → (claimedDirs acc).Nodup →
      (∀ d ∈ claimedDirs acc, d ∉ mapKeys pool) →
      (mapKeys (addLeftoverDirs acc pool)).Nodup ∧
      (∀ pr ∈ addLeftoverDirs acc pool, pr.2.realPath = pr.1) ∧
      (claimedDirs (addLeftoverDirs acc pool)).Nodup := by
  induction pool with
  | nil =>
    intro acc h1 h2 _ h4 _
    exact ⟨h1, h2, h4⟩
  | cons q rest ih =>
    intro acc h1 h2 h3 h4 h5
    have hq_keys : mapKeys (q :: rest) = q.1 :: mapKeys rest := by simp [mapKeys]
    have hkrest : (mapKeys rest).Nodup := by
      rw [hq_keys] at h3
      exact (List.nodup_cons.mp h3).2
    have hq_notin : q.1 ∉ mapKeys rest := by
      rw [hq_keys] at h3
      exact (List.nodup_cons.mp h3).1
    simp only [addLeftoverDirs]
    by_cases hhas : jsMapHas acc (derivedRealPath q) = true
    · rw [if_pos hhas]
      refine ih acc h1 h2 hkrest h4 ?_
      intro d hd hmem
      exact h5 d hd (by rw [hq_keys]; exact List.mem_cons_of_mem _ hmem)
    · have hfresh : jsMapHas acc (derivedRealPath q) = false := by
        cases hx : jsMapHas acc (derivedRealPath q) with
        | false => rfl
        | true => exact absurd hx hhas
      rw [if_neg hhas, jsMapSet_fresh _ _ _ hfresh]
      have hq_ncl : q.1 ∉ claimedDirs acc := by
        intro hin
        exact h5 q.1 hin (by rw [hq_keys]; exact List.mem_cons_self _ _)
      refine ih _ ?_ ?_ hkrest ?_ ?_
      · rw [mapKeys_append_single]
        exact nodup_append_single h1 (not_mem_of_not_has hfresh)
      · intro pr2 hpr2
        rcases List.mem_append.mp hpr2 with hmem | hmem
        · exact h2 pr2 hmem
        · rcases List.mem_singleton.mp hmem with rfl
          rfl
      · rw [claimedDirs_append]
        simp only [mkDirProject, if_true]
        exact nodup_append_single h4 hq_ncl
      · intro d hd
        rw [claimedDirs_append] at hd
        simp only [mkDirProject, if_true] at hd
        rcases List.mem_append.mp hd with hmem | hmem
        · intro hin
          exact h5 d hmem (by rw [hq_keys]; exact List.mem_cons_of_mem _ hin)
        · rcases List.mem_singleton.mp hmem with rfl
          exact hq_notin

/-- The Project values' real paths coincide with the map keys. -/
theorem map_realPath_eq_keys (m : List (PathStr × Project))
    (h : ∀ pr ∈ m, pr.2.realPath = pr.1) :
    (m.map (fun pr => pr.2)).map (fun p => p.realPath) = mapKeys m := by
  rw [List.map_map]
  exact List.map_congr_left h

/-- Filtering the values on hasCache and projecting dirName yields claimedDirs. -/
theorem filter_values_eq_claimed (m : List (PathStr × Project)) :
    ((m.map (fun pr => pr.2)).filter (fun p => p.hasCache)).map (fun p => p.dirName) =
      claimedDirs m := by
  induction m with
  | nil => rfl
  | cons pr rest ih =>
    simp only [List.map_cons, List.filter_cons, claimedDirs] at *
    cases h : pr.2.hasCache <;> simp [h, ih]

/-- C3: reconciliation never assigns two ConfigEntries to the same cache directory
and never produces two Projects with the same realPath — in the project list built
by getLocalProjects the real paths are pairwise distinct, and the cache directory
names of the Projects that carry a cache are pairwise distinct (each matched
directory is removed from the unclaimed pool; an unclaimed directory whose derived
real path collides with a registered Project is discarded). -/
theorem claim_C3_reconciliation_injective (cfg : List (PathStr × ConfigEntry))
    (cacheRoot : List Entry)
    (hcfg : (cfg.map (fun pr => pr.1)).Nodup)
    (hroot : ((cacheRoot.filter Entry.isDir).map Entry.name).Nodup) :
    ((getLocalProjects cfg cacheRoot).map (fun p => p.realPath)).Nodup ∧
    (((getLocalProjects cfg cacheRoot).filter (fun p => p.hasCache)).map
        (fun p => p.dirName)).Nodup := by
  have hpool : (mapKeys (cacheDirPool cacheRoot)).Nodup := by
    simpa [cacheDirPool, mapKeys, List.map_map, Function.comp] using hroot
  have hinv0 : ReconInv ⟨cacheDirPool cacheRoot, []⟩ :=
    ⟨by simp [mapKeys], by simp, hpool, by simp [claimedDirs], by simp [claimedDirs]⟩
  have hinv1 := foldl_process_inv cfg ⟨cacheDirPool cacheRoot, []⟩ hinv0
    (fun k _ => by simp [jsMapHas]) hcfg
  obtain ⟨ha1, ha2, ha3, ha4, ha5⟩ := hinv1
  obtain ⟨hm1, hm2, hm3⟩ := addLeftoverDirs_inv
    (cfg.foldl processConfigEntry ⟨cacheDirPool cacheRoot, []⟩).pool
    (cfg.foldl processConfigEntry ⟨cacheDirPool cacheRoot, []⟩).acc ha1 ha2 ha3 ha4 ha5
  have hgl : getLocalProjects cfg cacheRoot =
      ((addLeftoverDirs (cfg.foldl processConfigEntry ⟨cacheDirPool cacheRoot, []⟩).acc
          (cfg.foldl processConfigEntry ⟨cacheDirPool cacheRoot, []⟩).pool).map
        (fun pr => pr.2)).mergeSort (fun a b => b.lastModified ≤ a.lastModified) := rfl
  have hperm := List.mergeSort_perm
    ((addLeftoverDirs (cfg.foldl processConfigEntry ⟨cacheDirPool cacheRoot, []⟩).acc
        (cfg.foldl processConfigEntry ⟨cacheDirPool cacheRoot, []⟩).pool).map
      (fun pr => pr.2)) (fun a b => b.lastModified ≤ a.lastModified)
  constructor
  · rw [hgl]
    have hpm := hperm.map (fun p => p.realPath)
    rw [map_realPath_eq_keys _ hm2] at hpm
    exact hpm.symm.nodup hm1
  · rw [hgl]
    have hp2 := (hperm.filter (fun p => p.hasCache)).map (fun p => p.dirName)
    rw [filter_values_eq_claimed] at hp2
    exact hp2.symm.nodup hm3

/-- Witness for C3 on a one-entry configuration and an empty cache root. -/
theorem claim_C3_reconciliation_injective_witness :
    (((getLocalProjects [(['C', ':', '\\', 'a'], ⟨none, []⟩)] []).map
        (fun p => p.realPath)).Nodup) ∧
    ((((getLocalProjects [(['C', ':', '\\', 'a'], ⟨none, []⟩)] []).filter
        (fun p => p.hasCache)).map (fun p => p.dirName)).Nodup) :=
  claim_C3_reconciliation_injective [(['C', ':', '\\', 'a'], ⟨none, []⟩)] []
    (by decide) (by decide)

/-- A cache directory named A--p whose session log says the project lives at q. -/
def exDirA : Entry :=
  .dir ['A', '-', '-', 'p'] 5 true
    [.file ['s', '.', 'j', 's', 'o', 'n', 'l'] 1 true [.record (some ['q'])]]

/-- A second cache directory, discovered later, whose session log also says q. -/
def exDirB : Entry :=
  .dir ['B', '-', '-', 'r'] 9 true
    [.file ['t', '.', 'j', 's', 'o', 'n', 'l'] 1 true [.record (some ['q'])]]

/-- Counterexample to C7: both unclaimed directories derive the same real path q,
yet the Project registered for q is built from the FIRST directory in scan order
(dirName A--p), not the last (B--r): step 3 only inserts when the real path is not
yet registered, so the first duplicate wins. -/
theorem claim_C7_counterexample :
    derivedRealPath (['A', '-', '-', 'p'], exDirA) = ['q'] ∧
    derivedRealPath (['B', '-', '-', 'r'], exDirB) = ['q'] ∧
    (getLocalProjects [] [exDirA, exDirB]).map (fun p => p.dirName) =
      [['A', '-', '-', 'p']] := by
  refine ⟨rfl, rfl, ?_⟩
  have h1 : getLocalProjects [] [exDirA, exDirB] =
      List.mergeSort [mkDirProject (['A', '-', '-', 'p'], exDirA) ['q']]
        (fun a b => b.lastModified ≤ a.lastModified) := rfl
  rw [h1]
  rw [List.perm_singleton.mp (List.mergeSort_perm
    [mkDirProject (['A', '-', '-', 'p'], exDirA) ['q']]
    (fun a b => b.lastModified ≤ a.lastModified))]
  rfl

/-- Bindings already present survive the addition of the leftover directories. -/
theorem addLeftoverDirs_preserves (pool : List (PathStr × Entry)) :
    ∀ (acc : List (PathStr × Project)) (k : PathStr), jsMapHas acc k = true →
      jsMapGet (addLeftoverDirs acc pool) k = jsMapGet acc k := by
  induction pool with
  | nil =>
    intro acc k _
    rfl
  | cons q rest ih =>
    intro acc k h
    simp only [addLeftoverDirs]
    by_cases hhas : jsMapHas acc (derivedRealPath q) = true
    · rw [if_pos hhas]
      exact ih acc k h
    · have hfresh : jsMapHas acc (derivedRealPath q) = false := by
        cases hx : jsMapHas acc (derivedRealPath q) with
        | false => rfl
        | true => exact absurd hx hhas
      rw [if_neg hhas, jsMapSet_fresh _ _ _ hfresh]
      have hhas2 : jsMapHas (acc ++ [(derivedRealPath q,
          mkDirProject q (derivedRealPath q))]) k = true := by
        rw [jsMapHas_append_single]
        simp [h]
      rw [ih _ k hhas2]
      exact jsMapGet_append_left _ _ _ h

/-- C7 amended: when several unclaimed directories derive the same real path, the
FIRST scanner-discovered duplicate wins: for a real path not already registered,
the Project stored by step 3 is built from the first pool directory (in scan
order) whose derived real path matches. -/
theorem claim_C7_amended (pool : List (PathStr × Entry)) (acc : List (PathStr × Project))
    (k : PathStr) (h : jsMapHas acc k = false) :
    jsMapGet (addLeftoverDirs acc pool) k =
      (pool.find? (fun q => derivedRealPath q == k)).map
        (fun q => mkDirProject q (derivedRealPath q)) := by
  induction pool generalizing acc with
  | nil =>
    simpa [addLeftoverDirs] using jsMapGet_none_of_not_has h
  | cons q rest ih =>
    simp only [addLeftoverDirs, List.find?_cons]
    by_cases hq : derivedRealPath q = k
    · subst hq
      have hqb : (derivedRealPath q == derivedRealPath q) = true := by simp
      simp only [hqb, cond_true]
      rw [if_neg (by simp [h])]
      rw [jsMapSet_fresh _ _ _ h]
      have hhas2 : jsMapHas (acc ++ [(derivedRealPath q,
          mkDirProject q (derivedRealPath q))]) (derivedRealPath q) = true := by
        rw [jsMapHas_append_single]
        simp
      rw [addLeftoverDirs_preserves rest _ _ hhas2]
      simpa using jsMapGet_append_fresh acc (derivedRealPath q)
        (mkDirProject q (derivedRealPath q)) h
    · have hqb : (derivedRealPath q == k) = false := by simpa using hq
      simp only [hqb, cond_false]
      by_cases hhas : jsMapHas acc (derivedRealPath q) = true
      · rw [if_pos hhas]
        exact ih acc h
      · have hfresh : jsMapHas acc (derivedRealPath q) = false := by
          cases hx : jsMapHas acc (derivedRealPath q) with
          | false => rfl
          | true => exact absurd hx hhas
        rw [if_neg hhas, jsMapSet_fresh _ _ _ hfresh]
        apply ih
        rw [jsMapHas_append_single]
        simp [h, hq]

/-- Witness for C7 amended on a one-directory pool and an empty project map. -/
theorem claim_C7_amended_witness :
    jsMapGet (addLeftoverDirs [] [(['A', '-', '-', 'p'], exDirA)]) ['q'] =
      (([(['A', '-', '-', 'p'], exDirA)].find?
          (fun q => derivedRealPath q == ['q'])).map
        (fun q => mkDirProject q (derivedRealPath q))) :=
  claim_C7_amended [(['A', '-', '-', 'p'], exDirA)] [] ['q'] rfl

/-- One filesystem or configuration write performed by the apply phase of
cleanProjects, in program order.  Deletion events carry names (full joined paths
are abstracted to the entry names); the two write events carry the projects map
the written file serializes. -/
inductive FsEvent where
  | deleteFile (dir : PathStr) (file : PathStr) : FsEvent
  | deleteDir (dir : PathStr) : FsEvent
  | writeBackup (projects : List (PathStr × ConfigEntry)) : FsEvent
  | writeConfig (projects : List (PathStr × ConfigEntry)) : FsEvent
deriving DecidableEq

/-- Destructive filesystem deletions. -/
def FsEvent.isDeletion : FsEvent → Bool
  | .deleteFile _ _ => true
  | .deleteDir _ => true
  | .writeBackup _ => false
  | .writeConfig _ => false

/-- The backup write. -/
def FsEvent.isBackup : FsEvent → Bool
  | .writeBackup _ => true
  | _ => false

/-- One noCacheProjects plan item of cleanProjects: the configured real path and
the expected cache directory name the project's path field points at. -/
structure PlanProj where
  realPath : PathStr
  path : PathStr
deriving DecidableEq

/-- One orphanDirs plan item of cleanProjects: the cache directory name and the
realPath field recorded by the planner (possibly a guessed string). -/
structure OrphanDir where
  dirName : PathStr
  realPath : PathStr
deriving DecidableEq

/-- State threaded through the apply phase: the parsed configuration being
mutated, the cache root listing, the ordered event trace, and the
deletedConfigPaths list. -/
structure CleanState where
  cfg : List (PathStr × ConfigEntry)
  root : List Entry
  events : List FsEvent
  deletedPaths : List PathStr

instance : Nonempty CleanState := ⟨⟨[], [], [], []⟩⟩

/-- The jsonl unlink loop of cleanProjects (lines 322-326): the .jsonl-named
entries are unlinked in listing order; unlinking an entry that is a directory
throws, which aborts the remaining unlinks (the error is caught one level up);
entries whose name does not end in .jsonl are never touched. -/
def unlinkJsonlFiles (dn : PathStr) : List Entry → List Entry × List FsEvent
  | [] => ([], [])
  | e :: rest =>
    if endsJsonl e.name then
      match e with
      | .file _ _ _ _ =>
        let pr := unlinkJsonlFiles dn rest
        (pr.1, .deleteFile dn e.name :: pr.2)
      | .dir _ _ _ _ => (e :: rest, [])
    else
      let pr := unlinkJsonlFiles dn rest
      (e :: pr.1, pr.2)

/-- Replace (or with none, remove) the first root entry carrying the given name. -/
def replaceRootEntry (root : List Entry) (nm : PathStr) (repl : Option Entry) : List Entry :=
  match root with
  | [] => []
  | e :: rest =>
    if e.name == nm then
      match repl with
      | some e2 => e2 :: rest
      | none => rest
    else e :: replaceRootEntry rest nm repl

/-- The per-project deletion step for config-only projects (cleanProjects lines
309-334): when the entry is still configured it is deleted from the configuration
and recorded; then, when the expected cache path exists and can be listed, the
directory is removed if empty, otherwise its .jsonl files are unlinked; every
error is caught and the step degrades to the work already done. -/
def applyNoCacheOne (st : CleanState) (p : PlanProj) : CleanState :=
  if (jsMapGet st.cfg p.realPath).isSome then
    let cfg2 := jsMapDelete st.cfg p.realPath
    let deleted2 := st.deletedPaths ++ [p.realPath]
    match st.root.find? (fun e => e.name == p.path) with
    | none =>
      { cfg := cfg2, root := st.root, events := st.events, deletedPaths := deleted2 }
    | some (.file _ _ _ _) =>
      { cfg := cfg2, root := st.root, events := st.events, deletedPaths := deleted2 }
    | some (.dir nm mt listable children) =>
      if listable then
        if children.isEmpty then
          { cfg := cfg2, root := replaceRootEntry st.root p.path none,
            events := st.events ++ [.deleteDir p.path], deletedPaths := deleted2 }
        else
          { cfg := cfg2,
            root := replaceRootEntry st.root p.path
              (some (.dir nm mt listable (unlinkJsonlFiles p.path children).1)),
            events := st.events ++ (unlinkJsonlFiles p.path children).2,
            deletedPaths := deleted2 }
      else
        { cfg := cfg2, root := st.root, events := st.events, deletedPaths := deleted2 }
  else st

mutual

/-- The recursive rmDir of cleanProjects (lines 346-359) on one entry: a readable
file is unlinked; an unreadable file makes statSync throw, so it survives and the
abort propagates; a listable directory has its children removed first and is then
removed itself if no child aborted; an unlistable directory makes readdirSync
throw.  The first component is the surviving remnant (none when fully removed). -/
def rmEntry : Entry → Option Entry × List FsEvent
  | .file n sz readable ls =>
    if readable then (none, [.deleteFile [] n])
    else (some (.file n sz readable ls), [])
  | .dir n mt listable children =>
    if listable then
      match rmChildren children with
      | (rem, evs, true) => (some (.dir n mt listable rem), evs)
      | (_, evs, false) => (none, evs ++ [.deleteDir n])
    else (some (.dir n mt listable children), [])

/-- The loop of rmDir over a listing; the Bool reports whether a throw aborted
the loop, in which case the unprocessed suffix survives. -/
def rmChildren : List Entry → List Entry × List FsEvent × Bool
  | [] => ([], [], false)
  | e :: rest =>
    match rmEntry e with
    | (some r, evs) => (r :: rest, evs, true)
    | (none, evs) =>
      let pr := rmChildren rest
      (pr.1, evs ++ pr.2.1, pr.2.2)

end

/-- The per-directory deletion step for orphan directories (cleanProjects lines
337-366): when the recorded real path is truthy, present in the planning-time
configuration snapshot and not already deleted, the configuration entry is
deleted and recorded; then the directory tree is removed recursively, keeping
whatever survives a thrown error. -/
def applyOrphanOne (origCfg : List (PathStr × ConfigEntry)) (st : CleanState)
    (o : OrphanDir) : CleanState :=
  let st1 :=
    if !o.realPath.isEmpty && (jsMapGet origCfg o.realPath).isSome
        && !(st.deletedPaths.contains o.realPath) then
      { st with cfg := jsMapDelete st.cfg o.realPath,
                deletedPaths := st.deletedPaths ++ [o.realPath] }
    else st
  match st1.root.find? (fun e => e.name == o.dirName) with
  | none => st1
  | some (.file _ _ _ _) => st1
  | some (.dir nm mt listable children) =>
    match rmEntry (.dir nm mt listable children) with
    | (rem, evs) =>
      { st1 with root := replaceRootEntry st1.root o.dirName rem,
                 events := st1.events ++ evs }

/-- Embedding of the apply phase of cleanProjects (commands.js lines 300-382), in
program order: the pre-change configuration is read and parsed, the config-only
projects are processed, the orphan directories are processed, the pre-change
content is written to the timestamped backup, and finally the mutated
configuration overwrites the configuration file. -/
def cleanApply (origCfg : List (PathStr × ConfigEntry)) (noCache : List PlanProj)
    (orphans : List OrphanDir) (root : List Entry) : CleanState :=
  let st1 := noCache.foldl applyNoCacheOne ⟨origCfg, root, [], []⟩
  let st2 := orphans.foldl (applyOrphanOne origCfg) st1
  { st2 with events := st2.events ++ [.writeBackup origCfg, .writeConfig st2.cfg] }

/-- The ordering property claim C1 asserts of the event trace: no destructive
deletion happens before the first backup write, so the prefix of the trace that
precedes the first backup contains no deletion. -/
def backupBeforeDeletions (evs : List FsEvent) : Bool :=
  !((evs.takeWhile (fun e => !e.isBackup)).any (fun e => e.isDeletion))

/-- A one-entry configuration whose project q has lost its cache content. -/
def exC1cfg : List (PathStr × ConfigEntry) := [(['q'], ⟨none, []⟩)]

/-- The plan for the counterexample: one config-only project whose expected cache
directory D still exists and still holds one session log. -/
def exC1plan : List PlanProj := [⟨['q'], ['D']⟩]

/-- The cache root for the counterexample. -/
def exC1root : List Entry :=
  [.dir ['D'] 0 true [.file ['s', '.', 'j', 's', 'o', 'n', 'l'] 3 true []]]

/-- Counterexample to C1: applying this plan unlinks the session log FIRST and
writes the timestamped backup only afterwards — the trace is deletion, then
backup, then configuration overwrite — so the backup is not durably written
before destructive deletion begins, contradicting the claimed ordering. -/
theorem claim_C1_counterexample :
    (cleanApply exC1cfg exC1plan [] exC1root).events =
      [.deleteFile ['D'] ['s', '.', 'j', 's', 'o', 'n', 'l'],
       .writeBackup exC1cfg, .writeConfig []] ∧
    backupBeforeDeletions (cleanApply exC1cfg exC1plan [] exC1root).events = false := by
  constructor
  · rfl
  · rfl

/-- Events are deletions only. -/
def deletionsOnly (evs : List FsEvent) : Prop :=
  ∀ e ∈ evs, e.isDeletion = true

/-- The jsonl unlink loop emits only deletion events. -/
theorem unlinkJsonlFiles_deletions (dn : PathStr) (l : List Entry) :
    deletionsOnly (unlinkJsonlFiles dn l).2 := by
  induction l with
  | nil => intro e he; simp [unlinkJsonlFiles] at he
  | cons a rest ih =>
    intro e he
    simp only [unlinkJsonlFiles] at he
    by_cases hj : endsJsonl a.name = true
    · rw [if_pos hj] at he
      cases a with
      | file n sz r ls =>
        simp only at he
        rcases List.mem_cons.mp he with rfl | hmem
        · rfl
        · exact ih e hmem
      | dir n mt lst ch =>
        simp only at he
        simp at he
    · rw [if_neg hj] at he
      exact ih e he

mutual

/-- rmEntry emits only deletion events. -/
theorem rmEntry_deletions (e : Entry) : deletionsOnly (rmEntry e).2 := by
  cases e with
  | file n sz readable ls =>
    intro ev hev
    simp only [rmEntry] at hev
    cases readable with
    | true =>
      simp only [if_true] at hev
      rcases List.mem_singleton.mp hev with rfl
      rfl
    | false => simp at hev
  | dir n mt listable children =>
    intro ev hev
    simp only [rmEntry] at hev
    cases listable with
    | false => simp at hev
    | true =>
      simp only [if_true] at hev
      have hch := rmChildren_deletions children
      rcases hab : rmChildren children with ⟨rem, evs, ab⟩
      rw [hab] at hev hch
      cases ab with
      | true =>
        simp only at hev
        exact hch ev hev
      | false =>
        simp only at hev
        rcases List.mem_append.mp hev with hmem | hmem
        · exact hch ev hmem
        · rcases List.mem_singleton.mp hmem with rfl
          rfl

/-- The rmDir loop emits only deletion events. -/
theorem rmChildren_deletions (l : List Entry) : deletionsOnly (rmChildren l).2.1 := by
  cases l with
  | nil => intro ev hev; simp [rmChildren] at hev
  | cons a rest =>
    intro ev hev
    simp only [rmChildren] at hev
    have ha := rmEntry_deletions a
    rcases hra : rmEntry a with ⟨rem, evs⟩
    rw [hra] at hev ha
    cases rem with
    | some r =>
      simp only at hev
      exact ha ev hev
    | none =>
      simp only at hev
      rcases List.mem_append.mp hev with hmem | hmem
      · exact ha ev hmem
      · exact rmChildren_deletions rest ev hmem

end

/-- One config-only step only appends deletion events. -/
theorem applyNoCacheOne_events (st : CleanState) (p : PlanProj) :
    ∃ evs, (applyNoCacheOne st p).events = st.events ++ evs ∧ deletionsOnly evs := by
  unfold applyNoCacheOne
  by_cases hg : (jsMapGet st.cfg p.realPath).isSome = true
  · rw [if_pos hg]
    cases hf : st.root.find? (fun e => e.name == p.path) with
    | none => exact ⟨[], by simp, by intro e he; simp at he⟩
    | some e0 =>
      cases e0 with
      | file n sz r ls => exact ⟨[], by simp, by intro e he; simp at he⟩
      | dir nm mt listable children =>
        cases listable with
        | false => exact ⟨[], by simp, by intro e he; simp at he⟩
        | true =>
          by_cases hemp : children.isEmpty = true
          · refine ⟨[.deleteDir p.path], by simp [hemp], ?_⟩
            intro e he
            rcases List.mem_singleton.mp he with rfl
            rfl
          · refine ⟨(unlinkJsonlFiles p.path children).2, by simp [hemp], ?_⟩
            exact unlinkJsonlFiles_deletions p.path children
  · rw [if_neg hg]
    exact ⟨[], by simp, by intro e he; simp at he⟩

/-- One orphan step only appends deletion events. -/
theorem applyOrphanOne_events (origCfg : List (PathStr × ConfigEntry)) (st : CleanState)
    (o : OrphanDir) :
    ∃ evs, (applyOrphanOne origCfg st o).events = st.events ++ evs ∧ deletionsOnly evs := by
  unfold applyOrphanOne
  set st1 :=
    if !o.realPath.isEmpty && (jsMapGet origCfg o.realPath).isSome
        && !(st.deletedPaths.contains o.realPath) then
      { st with cfg := jsMapDelete st.cfg o.realPath,
                deletedPaths := st.deletedPaths ++ [o.realPath] }
    else st with hst1
  have hev1 : st1.events = st.events := by
    rw [hst1]
    by_cases hc : (!o.realPath.isEmpty && (jsMapGet origCfg o.realPath).isSome
        && !(st.deletedPaths.contains o.realPath)) = true
    · rw [if_pos hc]
    · rw [if_neg hc]
  cases hf : st1.root.find? (fun e => e.name == o.dirName) with
  | none =>
    refine ⟨[], ?_, by intro e he; simp at he⟩
    simp only [hf]
    simpa using hev1
  | some e0 =>
    cases e0 with
    | file n sz r ls =>
      refine ⟨[], ?_, by intro e he; simp at he⟩
      simp only [hf]
      simpa using hev1
    | dir nm mt listable children =>
      refine ⟨(rmEntry (.dir nm mt listable children)).2, ?_, ?_⟩
      · simp only [hf]
        rw [hev1]
      · exact rmEntry_deletions (.dir nm mt listable children)

/-- The config-only fold only appends deletion events. -/
theorem foldl_noCache_events (ps : List PlanProj) :
    ∀ st : CleanState,
      ∃ evs, (ps.foldl applyNoCacheOne st).events = st.events ++ evs ∧ deletionsOnly evs := by
  induction ps with
  | nil => intro st; exact ⟨[], by simp, by intro e he; simp at he⟩
  | cons p rest ih =>
    intro st
    obtain ⟨evs1, he1, hd1⟩ := applyNoCacheOne_events st p
    obtain ⟨evs2, he2, hd2⟩ := ih (applyNoCacheOne st p)
    refine ⟨evs1 ++ evs2, ?_, ?_⟩
    · simp only [List.foldl_cons, he2, he1, List.append_assoc]
    · intro e he
      rcases List.mem_append.mp he with hmem | hmem
      · exact hd1 e hmem
      · exact hd2 e hmem

/-- The orphan fold only appends deletion events. -/
theorem foldl_orphan_events (origCfg : List (PathStr × ConfigEntry)) (os : List OrphanDir) :
    ∀ st : CleanState,
      ∃ evs, (os.foldl (applyOrphanOne origCfg) st).events = st.events ++ evs ∧
        deletionsOnly evs := by
  induction os with
  | nil => intro st; exact ⟨[], by simp, by intro e he; simp at he⟩
  | cons o rest ih =>
    intro st
    obtain ⟨evs1, he1, hd1⟩ := applyOrphanOne_events origCfg st o
    obtain ⟨evs2, he2, hd2⟩ := ih (applyOrphanOne origCfg st o)
    refine ⟨evs1 ++ evs2, ?_, ?_⟩
    · simp only [List.foldl_cons, he2, he1, List.append_assoc]
    · intro e he
      rcases List.mem_append.mp he with hmem | hmem
      · exact hd1 e hmem
      · exact hd2 e hmem

/-- C1 amended: the pre-change configuration content is read (and so captured)
before any deletion, but the timestamped backup of that content is written only
AFTER all the plan's deletions have been attempted; it is still written before
the configuration file is overwritten.  The trace of every apply run is exactly
some sequence of deletion events, then the backup write carrying the pre-change
projects map, then the configuration overwrite. -/
theorem claim_C1_amended (origCfg : List (PathStr × ConfigEntry)) (noCache : List PlanProj)
    (orphans : List OrphanDir) (root : List Entry) :
    ∃ dels, (cleanApply origCfg noCache orphans root).events =
        dels ++ [.writeBackup origCfg,
                 .writeConfig (cleanApply origCfg noCache orphans root).cfg] ∧
      deletionsOnly dels := by
  obtain ⟨evs1, he1, hd1⟩ := foldl_noCache_events noCache ⟨origCfg, root, [], []⟩
  obtain ⟨evs2, he2, hd2⟩ :=
    foldl_orphan_events origCfg orphans (noCache.foldl applyNoCacheOne ⟨origCfg, root, [], []⟩)
  have hevs : (cleanApply origCfg noCache orphans root).events =
      (orphans.foldl (applyOrphanOne origCfg)
          (noCache.foldl applyNoCacheOne ⟨origCfg, root, [], []⟩)).events ++
        [.writeBackup origCfg,
         .writeConfig (cleanApply origCfg noCache orphans root).cfg] := rfl
  refine ⟨evs1 ++ evs2, ?_, ?_⟩
  · rw [hevs, he2, he1]
    simp [List.append_assoc]
  · intro e he
    rcases List.mem_append.mp he with hmem | hmem
    · exact hd1 e hmem
    · exact hd2 e hmem

/-- Deleting a key from a duplicate-free map makes it unreadable. -/
theorem jsMapGet_delete_self {α : Type} (m : List (PathStr × α)) (k : PathStr)
    (h : (mapKeys m).Nodup) : jsMapGet (jsMapDelete m k) k = none := by
  apply jsMapGet_none_of_not_has
  cases hx : jsMapHas (jsMapDelete m k) k with
  | false => rfl
  | true =>
    exfalso
    have hmem := (jsMapHas_iff_mem _ _).mp hx
    rw [mapKeys_delete] at hmem
    exact not_mem_eraseP_self (mapKeys m) k h hmem

/-- Deleting a key leaves every other key's binding unchanged. -/
theorem jsMapGet_delete_other {α : Type} (m : List (PathStr × α)) (k k2 : PathStr)
    (h : k2 ≠ k) : jsMapGet (jsMapDelete m k) k2 = jsMapGet m k2 := by
  induction m with
  | nil => rfl
  | cons pr rest ih =>
    simp only [jsMapDelete, List.eraseP_cons] at *
    cases hk : (pr.1 == k) with
    | true =>
      have hpk : pr.1 = k := by simpa using hk
      have hk2 : (pr.1 == k2) = false := by
        simp [hpk]
        intro he
        exact absurd he.symm h
      simp only [cond_true, jsMapGet, List.find?_cons, hk2]
    | false =>
      simp only [cond_false, jsMapGet, List.find?_cons]
      cases hk2 : (pr.1 == k2) with
      | true => rfl
      | false => exact ih

/-- When every .jsonl-named entry of the listing is a file, the unlink loop keeps
exactly the entries whose name does not end in .jsonl, in order and unchanged. -/
theorem unlinkJsonlFiles_filter (dn : PathStr) (l : List Entry)
    (h : ∀ e ∈ l, endsJsonl e.name = true → e.isDir = false) :
    (unlinkJsonlFiles dn l).1 = l.filter (fun e => !endsJsonl e.name) := by
  induction l with
  | nil => rfl
  | cons a rest ih =>
    have hrest : ∀ e ∈ rest, endsJsonl e.name = true → e.isDir = false :=
      fun e he => h e (List.mem_cons_of_mem a he)
    by_cases hj : endsJsonl a.name = true
    · cases a with
      | file n sz r ls =>
        simp only [unlinkJsonlFiles, hj, if_true, List.filter_cons]
        simp only [hj, Bool.not_true, Bool.false_eq_true, if_false]
        exact ih hrest
      | dir nm mt lst ch =>
        have := h (.dir nm mt lst ch) (List.mem_cons_self _ _) hj
        simp [Entry.isDir] at this
    · have hjf : endsJsonl a.name = false := by
        cases hx : endsJsonl a.name with
        | false => rfl
        | true => exact absurd hx hj
      simp only [unlinkJsonlFiles, hjf, Bool.false_eq_true, if_false, List.filter_cons]
      simp only [hjf, Bool.not_false, if_true]
      rw [ih hrest]

/-- C8: applying the plan for a config-only entry removes its ConfigEntry (its key
becomes unreadable, every other binding is untouched) and, on the cache side: if
no root entry carries the expected cache path the filesystem is unchanged; if the
expected directory exists, is listable and is empty, the directory itself is
removed; and if it is listable and non-empty (with the .jsonl-named entries being
regular files), exactly the files ending in .jsonl are deleted from it while every
other file of that directory and every other root entry remain unchanged. -/
theorem claim_C8_config_only_clean (st : CleanState) (p : PlanProj)
    (hcfg : (jsMapGet st.cfg p.realPath).isSome = true)
    (hnd : (mapKeys st.cfg).Nodup) :
    (jsMapGet (applyNoCacheOne st p).cfg p.realPath = none ∧
      (∀ k, k ≠ p.realPath → jsMapGet (applyNoCacheOne st p).cfg k = jsMapGet st.cfg k)) ∧
    (st.root.find? (fun e => e.name == p.path) = none →
      (applyNoCacheOne st p).root = st.root) ∧
    (∀ nm mt, st.root.find? (fun e => e.name == p.path) = some (.dir nm mt true []) →
      (applyNoCacheOne st p).root = replaceRootEntry st.root p.path none) ∧
    (∀ nm mt children, children ≠ [] →
      st.root.find? (fun e => e.name == p.path) = some (.dir nm mt true children) →
      (∀ e ∈ children, endsJsonl e.name = true → e.isDir = false) →
      (applyNoCacheOne st p).root = replaceRootEntry st.root p.path
        (some (.dir nm mt true (children.filter (fun e => !endsJsonl e.name))))) := by
  have hcfgr : (applyNoCacheOne st p).cfg = jsMapDelete st.cfg p.realPath := by
    unfold applyNoCacheOne
    rw [if_pos hcfg]
    cases hf : st.root.find? (fun e => e.name == p.path) with
    | none => simp only [hf]
    | some e0 =>
      cases e0 with
      | file n sz r ls => simp only [hf]
      | dir nm mt listable children =>
        simp only [hf]
        cases listable with
        | false => simp
        | true =>
          by_cases hemp : children.isEmpty = true
          · simp [hemp]
          · simp [hemp]
  refine ⟨⟨?_, ?_⟩, ?_, ?_, ?_⟩
  · rw [hcfgr]
    exact jsMapGet_delete_self st.cfg p.realPath hnd
  · intro k hk
    rw [hcfgr]
    exact jsMapGet_delete_other st.cfg p.realPath k hk
  · intro hf
    unfold applyNoCacheOne
    rw [if_pos hcfg]
    simp only [hf]
  · intro nm mt hf
    unfold applyNoCacheOne
    rw [if_pos hcfg]
    simp only [hf]
    simp
  · intro nm mt children hne hf hfiles
    have hemp : children.isEmpty = false := by
      cases children with
      | nil => exact absurd rfl hne
      | cons a rest => rfl
    unfold applyNoCacheOne
    rw [if_pos hcfg]
    simp only [hf, hemp, if_true, Bool.false_eq_true, if_false]
    rw [unlinkJsonlFiles_filter p.path children hfiles]

/-- The concrete apply state for the C8 witness: one configured project q whose
expected cache directory D still exists and holds one session log plus one
unrelated file. -/
def exC8st : CleanState :=
  ⟨[(['q'], ⟨none, []⟩)],
   [.dir ['D'] 0 true [.file ['s', '.', 'j', 's', 'o', 'n', 'l'] 3 true [],
                       .file ['o'] 7 true []]], [], []⟩

/-- The concrete config-only plan item for the C8 witness. -/
def exC8p : PlanProj := ⟨['q'], ['D']⟩

/-- Witness for C8 at the concrete state above. -/
theorem claim_C8_config_only_clean_witness :
    (jsMapGet (applyNoCacheOne exC8st exC8p).cfg exC8p.realPath = none ∧
      (∀ k, k ≠ exC8p.realPath →
        jsMapGet (applyNoCacheOne exC8st exC8p).cfg k = jsMapGet exC8st.cfg k)) ∧
    (exC8st.root.find? (fun e => e.name == exC8p.path) = none →
      (applyNoCacheOne exC8st exC8p).root = exC8st.root) ∧
    (∀ nm mt, exC8st.root.find? (fun e => e.name == exC8p.path) = some (.dir nm mt true []) →
      (applyNoCacheOne exC8st exC8p).root = replaceRootEntry exC8st.root exC8p.path none) ∧
    (∀ nm mt children, children ≠ [] →
      exC8st.root.find? (fun e => e.name == exC8p.path) = some (.dir nm mt true children) →
      (∀ e ∈ children, endsJsonl e.name = true → e.isDir = false) →
      (applyNoCacheOne exC8st exC8p).root = replaceRootEntry exC8st.root exC8p.path
        (some (.dir nm mt true (children.filter (fun e => !endsJsonl e.name))))) :=
  claim_C8_config_only_clean exC8st exC8p rfl (by decide)
